import Mathlib

/-!
Verification of the directory-coverage validation engine of `requirecodeowners`
(`main.go`): the coverage checker `hasCodeownersCoverage`, the directory
expander `getDirsAtLevel`, the validation engine `validate`, and the sorted
error report produced by `printErrors`.

Modelling conventions:
* Paths are relative, slash-separated.  Inside the validation engine a path is
  represented by its list of segments (`List String`); `pathToString` rebuilds
  the literal string (the joined form produced by `filepath.Join` on clean
  segment names).
* The CODEOWNERS ruleset is the external `codeowners.Ruleset` capability.  Its
  parser is out of scope; it is modelled as an opaque `Match` function from a
  path to an optional matching rule carrying its owner list, exactly the
  interface the engine consumes (`rule, _ := ruleset.Match(path)` ignores the
  error value).
* The filesystem visible to one run is a finite tree `FSNode`.  Besides plain
  files and directories the tree has two failure-injection nodes: `unreadable`
  (a directory whose `os.ReadDir` fails) and `statFail` (an entry for which
  `os.Stat` fails with an error other than non-existence).  `resolve` models
  path lookup from the working directory.
* `os.ReadDir` returns entries sorted by filename.  The entry lists stored in
  an `FSNode` are the listing order the program observes; `sortTree` is the
  name-sorting normalisation that relates an arbitrarily-ordered tree to the
  listing order Go actually produces, and is used to state listing-order
  independence.
* Error messages that interpolate a dynamic `%v` error value are modelled as a
  fixed rendering of the same shape (the offending path for read failures).
-/

/-! ## String utilities

Character-level comparison and splitting helpers.  The built-in `String`
order and `String.splitOn` are implemented with iterators and do not reduce
in the kernel, so the development uses its own structural equivalents.
-/

def slash : String := "/"

def slashChar : Char := '/'

def dotStr : String := "."

def dotChar : Char := '.'

def fileTxt : String := "file.txt"

/-- Byte-wise (code-point-wise) lexicographic comparison of character lists;
this is the order Go uses for raw string comparison (`<` on `string`) and the
order in which `os.ReadDir` sorts file names. -/
def charListLE : List Char → List Char → Bool
  | [], _ => true
  | _ :: _, [] => false
  | a :: as, b :: bs =>
    if a.toNat < b.toNat then true
    else if b.toNat < a.toNat then false
    else charListLE as bs

/-- String comparison used wherever Go compares path strings. -/
def strLE (a b : String) : Bool := charListLE a.data b.data

/-- Split a character list at every occurrence of `sep`, keeping empty
segments (the behaviour of `strings.Split`). -/
def splitOnChar (sep : Char) : List Char → List (List Char)
  | [] => [[]]
  | c :: cs =>
    if c = sep then [] :: splitOnChar sep cs
    else
      match splitOnChar sep cs with
      | [] => [[c]]
      | seg :: rest => (c :: seg) :: rest

def intercalateChar (sep : Char) : List (List Char) → List Char
  | [] => []
  | [s] => s
  | s :: rest => s ++ sep :: intercalateChar sep rest

/-- Path of a segment list, as the engine's error reports print it. -/
def pathToString (segs : List String) : String := String.intercalate slash segs

def dotdotSeg : List Char := ['.', '.']

/-- Segment-stack processing underlying `filepath.Clean`: drop empty and `.`
segments, let `..` pop a previous non-`..` segment (or be dropped at the root
of a rooted path, or pile up at the front of a relative path). -/
def cleanSegs (rooted : Bool) : List (List Char) → List (List Char) → List (List Char)
  | stack, [] => stack.reverse
  | stack, seg :: rest =>
    if seg = [] ∨ seg = [dotChar] then cleanSegs rooted stack rest
    else if seg = dotdotSeg then
      match stack with
      | [] => cleanSegs rooted (if rooted then [] else [seg]) rest
      | t :: s =>
        if t = dotdotSeg then cleanSegs rooted (seg :: stack) rest
        else cleanSegs rooted s rest
    else cleanSegs rooted (seg :: stack) rest

/-- Lexical path cleaning, the `filepath.Clean` used by
`hasCodeownersCoverage`: remove redundant separators and `.` segments,
resolve `..` lexically, return `.` for an empty result (`/` when rooted). -/
def clean (path : String) : String :=
  match path.data with
  | [] => dotStr
  | c :: cs =>
    let rooted := c = slashChar
    let segs := cleanSegs rooted [] (splitOnChar slashChar (c :: cs))
    if segs = [] then if rooted then slash else dotStr
    else if rooted then String.mk (slashChar :: intercalateChar slashChar segs)
    else String.mk (intercalateChar slashChar segs)

/-! ## The CODEOWNERS ruleset capability -/

/-- A matched CODEOWNERS rule, reduced to the only field the engine reads:
its owner list. -/
structure Rule where
  Owners : List String
deriving DecidableEq

/-- The external `codeowners.Ruleset` capability: `Match path` returns the
rule that applies to `path`, if any.  The engine discards the error value of
`Ruleset.Match`, so it is not modelled. -/
structure Ruleset where
  Match : String → Option Rule

/-- Whether one probe path is matched by a rule with at least one owner. -/
def probeCovered (ruleset : Ruleset) (path : String) : Bool :=
  match ruleset.Match path with
  | some rule => decide (0 < rule.Owners.length)
  | none => false

/-- `hasCodeownersCoverage` from `main.go`: clean the directory path, then
probe the ruleset with the bare path, the path with a trailing separator, and
the path with a trailing separator plus a synthetic file name, returning true
as soon as a probe is matched by a rule with a non-empty owner list. -/
def hasCodeownersCoverage (ruleset : Ruleset) (dir : String) : Bool :=
  let d := clean dir
  [d, d ++ slash, d ++ slash ++ fileTxt].any (probeCovered ruleset)

/-! ## The filesystem model -/

mutual
inductive FSNode where
  | file : FSNode
  | dir : FSEntries → FSNode
  | unreadable : FSNode
  | statFail : FSNode
inductive FSEntries where
  | nil : FSEntries
  | cons : String → FSNode → FSEntries → FSEntries
end

/-- Whether a directory entry reports `IsDir()`.  An `unreadable` node is a
directory (it stats as one); its listing simply fails. -/
def isDirNode : FSNode → Bool
  | .dir _ => true
  | .unreadable => true
  | _ => false

def lookupEntry (name : String) : FSEntries → Option FSNode
  | .nil => none
  | .cons n t rest => if n = name then some t else lookupEntry name rest

/-- Path lookup from the working directory, the basis of `os.Stat`:
`none` models `os.IsNotExist`, `some .statFail` models a stat error other
than non-existence, and otherwise the node tells whether the path is a
directory. -/
def resolve : FSNode → List String → Option FSNode
  | node, [] => some node
  | .dir es, seg :: rest =>
    match lookupEntry seg es with
    | some child => resolve child rest
    | none => none
  | _, _ :: _ => none

deriving instance DecidableEq for Except

/-! ## The directory expander `getDirsAtLevel` -/

mutual
/-- `getDirsAtLevel` from `main.go`.  At `level == 0` the result is the
directory itself; otherwise the directory is listed (`os.ReadDir`; failure is
`Except.error` carrying the offending path) and the recursion descends with
`level-1` into each entry that is a directory, concatenating the results and
propagating the first error. -/
def getDirsAtLevel (node : FSNode) (path : List String) (level : Int) :
    Except (List String) (List (List String)) :=
  if level = 0 then .ok [path]
  else
    match node with
    | .dir es => getDirsFromEntries es path level
    | _ => .error path
/-- The entry loop of `getDirsAtLevel`: skip non-directory entries, recurse
into directory entries with `level-1`, append the results in listing order,
aborting on the first error. -/
def getDirsFromEntries (es : FSEntries) (path : List String) (level : Int) :
    Except (List String) (List (List String)) :=
  match es with
  | .nil => .ok []
  | .cons name child rest =>
    if isDirNode child then
      match getDirsAtLevel child (path ++ [name]) (level - 1) with
      | .error p => .error p
      | .ok ds =>
        match getDirsFromEntries rest path level with
        | .error p => .error p
        | .ok more => .ok (ds ++ more)
    else getDirsFromEntries rest path level
end

/-! ## The validation engine -/

/-- `validationError` from `main.go`. -/
structure validationError where
  path : String
  message : String
deriving DecidableEq

/-- `dirSpec` from `main.go` (one entry of the config's `directories` list);
the path is carried as its segment list. -/
structure dirSpec where
  Path : List String
  Level : Int
deriving DecidableEq

def doesNotExistMessage : String :=
  "directory does not exist. Create it or remove from .requirecodeowners.yml"

/-- Rendering of the `fmt.Sprintf("error: %v", err)` message for a stat
failure; the dynamic error text is modelled as a fixed suffix. -/
def statFailureMessage : String := "error: stat failure"

def notADirectoryMessage : String :=
  "path is a file, not a directory. Update .requirecodeowners.yml"

def readErrorMessagePre : String := "error reading: reading directory: "

/-- Rendering of `fmt.Sprintf("error reading: %v", err)` where `err` is the
wrapped `reading directory: ...` error of `getDirsAtLevel`; the dynamic part
is modelled by the offending path the error carries. -/
def readErrorMessage (p : List String) : String := readErrorMessagePre ++ pathToString p

def noSubdirsPre : String := "no subdirectories at level "

def noSubdirsPost : String := ". Create subdirectories or set level: 0"

def noSubdirectoriesMessage (level : Int) : String :=
  noSubdirsPre ++ toString level ++ noSubdirsPost

def missingBefore : String := "missing CODEOWNERS entry. Add to CODEOWNERS: /"

def missingAfter : String := "/ @owner"

def missingCoverageMessage (d : String) : String := missingBefore ++ d ++ missingAfter

/-- The body of `validate`'s loop for one spec: stat the path
(non-existence, stat failure, file instead of directory each yield exactly
one error and skip the rest), expand with `getDirsAtLevel` (failure yields
one error), report one error when `level > 0` finds no directories, and
otherwise report one `missing CODEOWNERS entry` error per expanded directory
that `hasCodeownersCoverage` rejects. -/
def validateSpec (root : FSNode) (ruleset : Ruleset) (spec : dirSpec) :
    List validationError :=
  match resolve root spec.Path with
  | none => [⟨pathToString spec.Path, doesNotExistMessage⟩]
  | some .statFail => [⟨pathToString spec.Path, statFailureMessage⟩]
  | some .file => [⟨pathToString spec.Path, notADirectoryMessage⟩]
  | some node =>
    match getDirsAtLevel node spec.Path spec.Level with
    | .error p => [⟨pathToString spec.Path, readErrorMessage p⟩]
    | .ok dirsToCheck =>
      if spec.Level > 0 ∧ dirsToCheck = [] then
        [⟨pathToString spec.Path, noSubdirectoriesMessage spec.Level⟩]
      else
        dirsToCheck.flatMap fun d =>
          if hasCodeownersCoverage ruleset (pathToString d) then []
          else [⟨pathToString d, missingCoverageMessage (pathToString d)⟩]

/-- `validate` from `main.go`: the per-spec error lists, concatenated in spec
order (every spec is processed; errors never abort the run). -/
def validate (root : FSNode) (ruleset : Ruleset) (specs : List dirSpec) :
    List validationError :=
  specs.flatMap (validateSpec root ruleset)

/-! ## The sorted report (`printErrors`) -/

/-- The comparison `printErrors` sorts by: ascending, case-sensitive ordinal
order on the `path` field. -/
def errLE (a b : validationError) : Prop := strLE a.path b.path = true

instance : DecidableRel errLE := fun a b => inferInstanceAs (Decidable (strLE a.path b.path = true))

/-- The sort performed at the top of `printErrors` (`sort.Slice` with a
`path`-comparison; modelled by a deterministic sort with the same order). -/
def sortErrors (errors : List validationError) : List validationError :=
  List.insertionSort errLE errors

/-- `pluralize` from `main.go`. -/
def pluralize (n : Nat) (singular plural : String) : String :=
  if n = 1 then singular else plural

def emptyStr : String := ""

def textCrossIndent : String := "  ✗ "

def textMsgIndent : String := "    "

def textCross : String := "✗ "

def spaceStr : String := " "

def dirWord : String := "directory"

def dirsWord : String := "directories"

def failedCheckSuffix : String := " failed CODEOWNERS check"

def mdTitle : String := "## ❌ CODEOWNERS Check Failed"

def mdHeaderRow : String := "| Path | Issue |"

def mdSeparatorRow : String := "|------|-------|"

def mdCellStart : String := "| `"

def mdCellMid : String := "` | "

def mdCellEnd : String := " |"

def boldMark : String := "**"

def needAttentionSuffix : String := "** need attention."

/-- The console (stderr) lines `printErrors` writes for an already-sorted
error sequence. -/
def textReport (sorted : List validationError) : List String :=
  [emptyStr] ++
    (sorted.flatMap fun e => [textCrossIndent ++ e.path, textMsgIndent ++ e.message]) ++
    [emptyStr,
     textCross ++ toString sorted.length ++ spaceStr ++
       pluralize sorted.length dirWord dirsWord ++ failedCheckSuffix]

/-- The markdown (stdout) lines `printErrors` writes for an already-sorted
error sequence. -/
def markdownReport (sorted : List validationError) : List String :=
  [mdTitle, emptyStr, mdHeaderRow, mdSeparatorRow] ++
    (sorted.map fun e => mdCellStart ++ e.path ++ mdCellMid ++ e.message ++ mdCellEnd) ++
    [emptyStr,
     boldMark ++ toString sorted.length ++ spaceStr ++
       pluralize sorted.length dirWord dirsWord ++ needAttentionSuffix]

/-- `printErrors` from `main.go`: sort the errors by path, then render the
sorted sequence to the console report and the markdown report. -/
def printErrors (errors : List validationError) : List String × List String :=
  let sorted := sortErrors errors
  (textReport sorted, markdownReport sorted)

/-! ## Specification-side restatement of the expander

`dirsAtLevelSpec` follows the spec's words for the recursive union
characterisation of level expansion; the refinement theorem for claim C2
compares it with `getDirsAtLevel`. -/

mutual
/-- The spec's characterisation of level expansion: at level 0 the directory
itself; otherwise the union, over the immediate subdirectory entries, of the
expansion of each subdirectory at `level - 1` (file entries ignored). -/
def dirsAtLevelSpec (node : FSNode) (path : List String) (level : Int) :
    List (List String) :=
  if level = 0 then [path]
  else
    match node with
    | .dir es => dirsAtLevelSpecEntries es path level
    | _ => []
/-- The union over the entries of one directory in the spec's
characterisation. -/
def dirsAtLevelSpecEntries (es : FSEntries) (path : List String) (level : Int) :
    List (List String) :=
  match es with
  | .nil => []
  | .cons name child rest =>
    (if isDirNode child then dirsAtLevelSpec child (path ++ [name]) (level - 1) else []) ++
      dirsAtLevelSpecEntries rest path level
end

mutual
/-- A tree in which every directory reachable by descending through
directory entries can be listed (no `unreadable` node in a descent
position), so that `getDirsAtLevel` never fails on it. -/
def readableTree : FSNode → Bool
  | .dir es => readableEntries es
  | .unreadable => false
  | _ => true
def readableEntries : FSEntries → Bool
  | .nil => true
  | .cons _ child rest => (!isDirNode child || readableTree child) && readableEntries rest
end

/-! ## The glob-handling validation variant

Modelled from the spec: the repository revision whose `validate` accepts
wildcard paths (exercised by `TestValidateWithGlob` in `main_test.go`) is not
among the sources; the wildcard branch below is built from the spec's words
(single-segment `*` glob expansion, silent exclusion of non-directories,
skipped existence pre-check, one error when the wildcard matches nothing). -/

def starChar : Char := '*'

/-- Whether a path contains a glob wildcard segment. -/
def hasWildcard (path : List String) : Bool :=
  path.any fun seg => seg.data.contains starChar

/-- Whether `pat` is a prefix of `s` (character lists). -/
def isPrefList : List Char → List Char → Bool
  | [], _ => true
  | _ :: _, [] => false
  | p :: ps, c :: cs => p = c && isPrefList ps cs

/-- The remainder of `s` after the first occurrence of `pat`, if any. -/
def afterFirst (pat : List Char) : List Char → Option (List Char)
  | [] => if pat = [] then some [] else none
  | c :: cs => if isPrefList pat (c :: cs) then some (List.drop pat.length (c :: cs)) else afterFirst pat cs

def isSuffList (pat s : List Char) : Bool := isPrefList pat.reverse s.reverse

/-- Match the parts of a `*`-separated pattern after its first part: middle
parts must occur in order, the last part must end the name. -/
def globRest : List (List Char) → List Char → Bool
  | [], s => s = []
  | [last], s => isSuffList last s
  | mid :: parts, s =>
    match afterFirst mid s with
    | none => false
    | some rest => globRest parts rest

/-- Modelled from the spec: single-segment glob matching where `*` matches
any sequence of non-separator characters within one path segment. -/
def globSeg (pattern name : List Char) : Bool :=
  match splitOnChar starChar pattern with
  | [] => decide (name = [])
  | [p] => decide (name = p)
  | p :: parts => isPrefList p name && globRest parts (List.drop p.length name)

mutual
/-- Modelled from the spec: expand a wildcard path against the filesystem to
the concrete paths matching it segment by segment, silently excluding
matches that are not directories; each match is returned with its node. -/
def globExpandNode (node : FSNode) (path : List String) (pattern : List String) :
    List (List String × FSNode) :=
  match pattern with
  | [] => if isDirNode node then [(path, node)] else []
  | seg :: rest =>
    match node with
    | .dir es => globExpandEntries es path seg rest
    | _ => []
/-- The entry loop of wildcard expansion at one directory level. -/
def globExpandEntries (es : FSEntries) (path : List String) (seg : String)
    (rest : List String) : List (List String × FSNode) :=
  match es with
  | .nil => []
  | .cons name child r =>
    (if globSeg seg.data name.data then globExpandNode child (path ++ [name]) rest else []) ++
      globExpandEntries r path seg rest
end

/-- Modelled from the spec: the aggregate level expansion over all matched
base paths, propagating the first listing failure. -/
def collectBases (bases : List (List String × FSNode)) (level : Int) :
    Except (List String) (List (List String)) :=
  match bases with
  | [] => .ok []
  | (p, node) :: rest =>
    match getDirsAtLevel node p level with
    | .error e => .error e
    | .ok ds =>
      match collectBases rest level with
      | .error e => .error e
      | .ok more => .ok (ds ++ more)

/-- Modelled from the spec: the message for a wildcard that matched no
directories. -/
def noGlobMatchesMessage : String := "no directories matched the pattern"

/-- Modelled from the spec: the per-spec behaviour of the glob-capable
`validate` revision.  For a wildcard path the literal existence pre-check is
skipped; the wildcard is expanded (non-directories silently excluded), a
wildcard matching nothing is one error, and the aggregate expansion is then
checked exactly as in the literal case.  A literal path takes the unchanged
`validateSpec` branch. -/
def validateSpecGlob (root : FSNode) (ruleset : Ruleset) (spec : dirSpec) :
    List validationError :=
  if hasWildcard spec.Path then
    match globExpandNode root [] spec.Path with
    | [] => [⟨pathToString spec.Path, noGlobMatchesMessage⟩]
    | bases =>
      match collectBases bases spec.Level with
      | .error p => [⟨pathToString spec.Path, readErrorMessage p⟩]
      | .ok dirsToCheck =>
        if spec.Level > 0 ∧ dirsToCheck = [] then
          [⟨pathToString spec.Path, noSubdirectoriesMessage spec.Level⟩]
        else
          dirsToCheck.flatMap fun d =>
            if hasCodeownersCoverage ruleset (pathToString d) then []
            else [⟨pathToString d, missingCoverageMessage (pathToString d)⟩]
  else validateSpec root ruleset spec

/-- Modelled from the spec: the glob-capable `validate` revision, per-spec
error lists concatenated in spec order. -/
def validateGlob (root : FSNode) (ruleset : Ruleset) (specs : List dirSpec) :
    List validationError :=
  specs.flatMap (validateSpecGlob root ruleset)

/-! ## Properties of the character-list order -/

theorem charListLE_cons_iff (a b : Char) (as bs : List Char) :
    charListLE (a :: as) (b :: bs) = true ↔
      (a.toNat < b.toNat ∨ (a.toNat = b.toNat ∧ charListLE as bs = true)) := by
  by_cases h1 : a.toNat < b.toNat
  · simp [charListLE, h1]
  · by_cases h2 : b.toNat < a.toNat
    · simp [charListLE, h1, h2]
      omega
    · have he : a.toNat = b.toNat := by omega
      simp [charListLE, h1, h2, he]

theorem charListLE_total : ∀ x y : List Char, charListLE x y = true ∨ charListLE y x = true := by
  intro x
  induction x with
  | nil => intro y; left; rfl
  | cons a as ih =>
    intro y
    cases y with
    | nil => right; rfl
    | cons b bs =>
      rcases Nat.lt_trichotomy a.toNat b.toNat with h | h | h
      · left; rw [charListLE_cons_iff]; exact Or.inl h
      · rcases ih bs with hc | hc
        · left; rw [charListLE_cons_iff]; exact Or.inr ⟨h, hc⟩
        · right; rw [charListLE_cons_iff]; exact Or.inr ⟨h.symm, hc⟩
      · right; rw [charListLE_cons_iff]; exact Or.inl h

theorem charListLE_trans : ∀ x y z : List Char,
    charListLE x y = true → charListLE y z = true → charListLE x z = true := by
  intro x
  induction x with
  | nil => intro y z _ _; rfl
  | cons a as ih =>
    intro y z hxy hyz
    cases y with
    | nil => simp [charListLE] at hxy
    | cons b bs =>
      cases z with
      | nil => simp [charListLE] at hyz
      | cons c cs =>
        rw [charListLE_cons_iff] at hxy hyz ⊢
        rcases hxy with h1 | ⟨h1, hr1⟩
        · rcases hyz with h2 | ⟨h2, _⟩
          · exact Or.inl (by omega)
          · exact Or.inl (by omega)
        · rcases hyz with h2 | ⟨h2, hr2⟩
          · exact Or.inl (by omega)
          · exact Or.inr ⟨by omega, ih bs cs hr1 hr2⟩

theorem charListLE_antisymm : ∀ x y : List Char,
    charListLE x y = true → charListLE y x = true → x = y := by
  intro x
  induction x with
  | nil =>
    intro y _ h2
    cases y with
    | nil => rfl
    | cons b bs => simp [charListLE] at h2
  | cons a as ih =>
    intro y h1 h2
    cases y with
    | nil => simp [charListLE] at h1
    | cons b bs =>
      rw [charListLE_cons_iff] at h1 h2
      rcases h1 with h1 | ⟨h1, hr1⟩
      · rcases h2 with h2 | ⟨h2, _⟩
        · exact absurd h2 (by omega)
        · exact absurd h2 (by omega)
      · rcases h2 with h2 | ⟨h2, hr2⟩
        · exact absurd h2 (by omega)
        · have hab : a = b := Char.eq_of_val_eq (by exact UInt32.toNat.inj h1)
          rw [hab, ih bs hr1 hr2]

theorem strLE_total (a b : String) : strLE a b = true ∨ strLE b a = true :=
  charListLE_total a.data b.data

theorem strLE_trans {a b c : String} (h1 : strLE a b = true) (h2 : strLE b c = true) :
    strLE a c = true :=
  charListLE_trans a.data b.data c.data h1 h2

theorem strLE_antisymm {a b : String} (h1 : strLE a b = true) (h2 : strLE b a = true) :
    a = b := by
  have h := charListLE_antisymm a.data b.data h1 h2
  cases a with
  | mk da =>
    cases b with
    | mk db => exact congrArg String.mk h

instance : IsTotal validationError errLE := ⟨fun a b => strLE_total a.path b.path⟩

instance : IsTrans validationError errLE := ⟨fun _ _ _ h1 h2 => strLE_trans h1 h2⟩

/-! ## Listing order and its normalisation -/

/-- The name order of directory entries (`os.ReadDir` sorts by filename). -/
def nameLE (a b : String × FSNode) : Prop := strLE a.1 b.1 = true

instance : DecidableRel nameLE := fun a b =>
  inferInstanceAs (Decidable (strLE a.1 b.1 = true))

instance : IsTotal (String × FSNode) nameLE := ⟨fun a b => strLE_total a.1 b.1⟩

instance : IsTrans (String × FSNode) nameLE := ⟨fun _ _ _ h1 h2 => strLE_trans h1 h2⟩

/-- The name order strengthened with distinctness; antisymmetric, which the
generic sorted-permutation argument needs. -/
def nameLT (a b : String × FSNode) : Prop := nameLE a b ∧ a.1 ≠ b.1

instance : IsAntisymm (String × FSNode) nameLT :=
  ⟨fun _ _ h1 h2 => absurd (strLE_antisymm h1.1 h2.1) h1.2⟩

def entriesOfList : List (String × FSNode) → FSEntries
  | [] => .nil
  | (n, t) :: rest => .cons n t (entriesOfList rest)

mutual
/-- Normalisation of a filesystem tree to the listing order Go observes:
every entry list sorted by filename (`os.ReadDir` sorts its result), at
every level. -/
def sortTree : FSNode → FSNode
  | .file => .file
  | .unreadable => .unreadable
  | .statFail => .statFail
  | .dir es => .dir (entriesOfList (List.insertionSort nameLE (sortEntsList es)))
/-- The recursively-normalised entries of a directory, as a list of pairs. -/
def sortEntsList : FSEntries → List (String × FSNode)
  | .nil => []
  | .cons n t rest => (n, sortTree t) :: sortEntsList rest
end

def entryNames : FSEntries → List String
  | .nil => []
  | .cons n _ rest => n :: entryNames rest

mutual
/-- Well-formedness of a filesystem tree: entry names are distinct within
every directory (true of any real filesystem). -/
def nodupNamesTree : FSNode → Bool
  | .dir es => decide (entryNames es).Nodup && nodupNamesEntries es
  | _ => true
def nodupNamesEntries : FSEntries → Bool
  | .nil => true
  | .cons _ t rest => nodupNamesTree t && nodupNamesEntries rest
end

mutual
/-- Two filesystem trees with the same contents whose directory listings may
enumerate their entries in different orders. -/
inductive ListingEquiv : FSNode → FSNode → Prop where
  | file : ListingEquiv .file .file
  | unreadable : ListingEquiv .unreadable .unreadable
  | statFail : ListingEquiv .statFail .statFail
  | dir {es1 es2} : EntriesEquiv es1 es2 → ListingEquiv (.dir es1) (.dir es2)
/-- Permutation of entry lists with `ListingEquiv`-related subtrees. -/
inductive EntriesEquiv : FSEntries → FSEntries → Prop where
  | nil : EntriesEquiv .nil .nil
  | cons {n t1 t2 r1 r2} : ListingEquiv t1 t2 → EntriesEquiv r1 r2 →
      EntriesEquiv (.cons n t1 r1) (.cons n t2 r2)
  | swap {n1 t1 n2 t2 r} :
      EntriesEquiv (.cons n1 t1 (.cons n2 t2 r)) (.cons n2 t2 (.cons n1 t1 r))
  | trans {a b c} : EntriesEquiv a b → EntriesEquiv b c → EntriesEquiv a c
end

theorem sortEntsList_names : ∀ es : FSEntries, (sortEntsList es).map Prod.fst = entryNames es
  | .nil => rfl
  | .cons n t rest => by simp [sortEntsList, entryNames, sortEntsList_names rest]

/-- Sorting by name identifies any two permutations of an entry list whose
names are distinct. -/
theorem insertionSort_nameLE_eq {L1 L2 : List (String × FSNode)} (hp : L1.Perm L2)
    (hnd : (L1.map Prod.fst).Nodup) :
    List.insertionSort nameLE L1 = List.insertionSort nameLE L2 := by
  have hs1 : List.Sorted nameLE (List.insertionSort nameLE L1) :=
    List.sorted_insertionSort nameLE L1
  have hs2 : List.Sorted nameLE (List.insertionSort nameLE L2) :=
    List.sorted_insertionSort nameLE L2
  have hp1 : (List.insertionSort nameLE L1).Perm L1 := List.perm_insertionSort nameLE L1
  have hp2 : (List.insertionSort nameLE L2).Perm L2 := List.perm_insertionSort nameLE L2
  have hp' : (List.insertionSort nameLE L1).Perm (List.insertionSort nameLE L2) :=
    hp1.trans (hp.trans hp2.symm)
  have hnd1 : ((List.insertionSort nameLE L1).map Prod.fst).Nodup :=
    ((hp1.map Prod.fst).nodup_iff).mpr hnd
  have hnd2 : ((List.insertionSort nameLE L2).map Prod.fst).Nodup :=
    ((hp'.map Prod.fst).nodup_iff).mp hnd1
  have key : ∀ L : List (String × FSNode), List.Sorted nameLE L →
      (L.map Prod.fst).Nodup → List.Sorted nameLT L := by
    intro L hs hn
    have hpe : L.Pairwise fun a b => a.1 ≠ b.1 := List.pairwise_map.mp hn
    exact hs.and hpe
  exact List.eq_of_perm_of_sorted hp' (key _ hs1 hnd1) (key _ hs2 hnd2)

/-- Listing-order equivalent well-formed trees have the same normalisation:
sorting every listing by filename erases the enumeration order. -/
theorem sortTree_eq_of_listingEquiv : ∀ {t1 t2 : FSNode}, ListingEquiv t1 t2 →
    nodupNamesTree t1 = true → sortTree t1 = sortTree t2 ∧ nodupNamesTree t2 = true := by
  intro t1 t2 h
  refine @ListingEquiv.rec
    (fun t1 t2 _ => nodupNamesTree t1 = true →
      sortTree t1 = sortTree t2 ∧ nodupNamesTree t2 = true)
    (fun e1 e2 _ => nodupNamesEntries e1 = true →
      (sortEntsList e1).Perm (sortEntsList e2) ∧
        (entryNames e1).Perm (entryNames e2) ∧ nodupNamesEntries e2 = true)
    ?_ ?_ ?_ ?_ ?_ ?_ ?_ ?_ t1 t2 h
  · intro _
    exact ⟨rfl, rfl⟩
  · intro _
    exact ⟨rfl, rfl⟩
  · intro _
    exact ⟨rfl, rfl⟩
  · intro es1 es2 he ih hnd
    simp only [nodupNamesTree, Bool.and_eq_true, decide_eq_true_eq] at hnd
    obtain ⟨hnd1, hnd2⟩ := hnd
    obtain ⟨ps, pn, hnd2a⟩ := ih hnd2
    constructor
    · simp only [sortTree]
      have : List.insertionSort nameLE (sortEntsList es1) =
          List.insertionSort nameLE (sortEntsList es2) :=
        insertionSort_nameLE_eq ps (by rw [sortEntsList_names]; exact hnd1)
      rw [this]
    · simp only [nodupNamesTree, Bool.and_eq_true, decide_eq_true_eq]
      exact ⟨pn.nodup_iff.mp hnd1, hnd2a⟩
  · intro _
    exact ⟨List.Perm.refl _, List.Perm.refl _, rfl⟩
  · intro n t1 t2 r1 r2 ht hr iht ihr hnd
    simp only [nodupNamesEntries, Bool.and_eq_true] at hnd
    obtain ⟨hndt, hndr⟩ := hnd
    obtain ⟨teq, tnd⟩ := iht hndt
    obtain ⟨ps, pn, rnd⟩ := ihr hndr
    refine ⟨?_, ?_, ?_⟩
    · simp only [sortEntsList]
      rw [teq]
      exact ps.cons _
    · simp only [entryNames]
      exact pn.cons n
    · simp only [nodupNamesEntries, Bool.and_eq_true]
      exact ⟨tnd, rnd⟩
  · intro n1 t1 n2 t2 r hnd
    simp only [nodupNamesEntries, Bool.and_eq_true] at hnd
    refine ⟨?_, ?_, ?_⟩
    · simp only [sortEntsList]
      exact List.Perm.swap _ _ _
    · simp only [entryNames]
      exact List.Perm.swap _ _ _
    · simp only [nodupNamesEntries, Bool.and_eq_true]
      tauto
  · intro a b c hab hbc ihab ihbc hnd
    obtain ⟨p1, q1, nd1⟩ := ihab hnd
    obtain ⟨p2, q2, nd2⟩ := ihbc nd1
    exact ⟨p1.trans p2, q1.trans q2, nd2⟩

/-! ## Helper lemmas -/

theorem probeCovered_iff (ruleset : Ruleset) (p : String) :
    probeCovered ruleset p = true ↔
      ∃ rule, ruleset.Match p = some rule ∧ rule.Owners ≠ [] := by
  cases h : ruleset.Match p with
  | none => simp [probeCovered, h]
  | some rule => simp [probeCovered, h, List.length_pos]

theorem flatMap_if_filter {α β : Type} (l : List α) (p : α → Bool) (f : α → β) :
    (l.flatMap fun d => if p d then [] else [f d]) = (l.filter fun d => !p d).map f := by
  induction l with
  | nil => rfl
  | cons a l ih =>
    by_cases h : p a = true
    · simp [List.flatMap_cons, List.filter_cons, h, ih]
    · simp [List.flatMap_cons, List.filter_cons, h, ih]

theorem validate_cons (root : FSNode) (ruleset : Ruleset) (s : dirSpec) (rest : List dirSpec) :
    validate root ruleset (s :: rest) = validateSpec root ruleset s ++ validate root ruleset rest := by
  simp [validate]

mutual
/-- On a readable directory, `getDirsAtLevel` succeeds and computes exactly
the spec's recursive union characterisation. -/
theorem getDirsAtLevel_ok_spec : ∀ (node : FSNode) (path : List String) (level : Int),
    readableTree node = true → isDirNode node = true →
    getDirsAtLevel node path level = .ok (dirsAtLevelSpec node path level)
  | .file, _, _, _, hd => by simp [isDirNode] at hd
  | .statFail, _, _, _, hd => by simp [isDirNode] at hd
  | .unreadable, _, _, hr, _ => by simp [readableTree] at hr
  | .dir es, path, level, hr, _ => by
    by_cases h0 : level = 0
    · simp [getDirsAtLevel, dirsAtLevelSpec, h0]
    · simp only [getDirsAtLevel, dirsAtLevelSpec, h0, if_false]
      exact getDirsFromEntries_ok_spec es path level (by simpa [readableTree] using hr)
/-- Entry-list version of `getDirsAtLevel_ok_spec`. -/
theorem getDirsFromEntries_ok_spec : ∀ (es : FSEntries) (path : List String) (level : Int),
    readableEntries es = true →
    getDirsFromEntries es path level = .ok (dirsAtLevelSpecEntries es path level)
  | .nil, _, _, _ => rfl
  | .cons n child rest, path, level, hr => by
    have hr' : (!isDirNode child || readableTree child) = true ∧ readableEntries rest = true := by
      simpa [readableEntries, Bool.and_eq_true] using hr
    by_cases hc : isDirNode child = true
    · have hcr : readableTree child = true := by
        have h1 := hr'.1
        simp [hc] at h1
        exact h1
      simp only [getDirsFromEntries, dirsAtLevelSpecEntries, hc, if_true,
        getDirsAtLevel_ok_spec child (path ++ [n]) (level - 1) hcr hc,
        getDirsFromEntries_ok_spec rest path level hr'.2]
    · simp only [getDirsFromEntries, dirsAtLevelSpecEntries, hc, Bool.false_eq_true, if_false,
        getDirsFromEntries_ok_spec rest path level hr'.2, List.nil_append]
end

mutual
/-- For a negative level the spec-side expansion is empty: the level never
reaches 0 again, so nothing is ever collected. -/
theorem dirsAtLevelSpec_neg : ∀ (node : FSNode) (path : List String) (level : Int),
    level < 0 → dirsAtLevelSpec node path level = []
  | node, path, level, hneg => by
    have h0 : ¬level = 0 := by omega
    cases node with
    | dir es =>
      simp only [dirsAtLevelSpec, h0, if_false]
      exact dirsAtLevelSpecEntries_neg es path level hneg
    | file => simp [dirsAtLevelSpec, h0]
    | unreadable => simp [dirsAtLevelSpec, h0]
    | statFail => simp [dirsAtLevelSpec, h0]
/-- Entry-list version of `dirsAtLevelSpec_neg`. -/
theorem dirsAtLevelSpecEntries_neg : ∀ (es : FSEntries) (path : List String) (level : Int),
    level < 0 → dirsAtLevelSpecEntries es path level = []
  | .nil, _, _, _ => rfl
  | .cons n child rest, path, level, hneg => by
    by_cases hc : isDirNode child = true
    · simp [dirsAtLevelSpecEntries, hc,
        dirsAtLevelSpec_neg child (path ++ [n]) (level - 1) (by omega),
        dirsAtLevelSpecEntries_neg rest path level hneg]
    · simp [dirsAtLevelSpecEntries, hc, dirsAtLevelSpecEntries_neg rest path level hneg]
end

theorem missingCoverageMessage_head (d : String) :
    (missingCoverageMessage d).data.head? = some 'm' := rfl

theorem readErrorMessage_head (p : List String) :
    (readErrorMessage p).data.head? = some 'e' := rfl

theorem noSubdirectoriesMessage_head (level : Int) :
    (noSubdirectoriesMessage level).data.head? = some 'n' := rfl

theorem ne_missingCoverageMessage {m : String} {c : Char}
    (hc : m.data.head? = some c) (hne : c ≠ 'm') :
    ∀ d, m ≠ missingCoverageMessage d := by
  intro d he
  apply hne
  have h2 : m.data.head? = some 'm' := by rw [he]; exact missingCoverageMessage_head d
  rw [hc] at h2
  exact Option.some.inj h2

/-! ## Concrete fixtures used by example conjuncts and witnesses -/

def emptyRuleset : Ruleset := ⟨fun _ => none⟩

def starSeg : String := "*"

/-- The level-expansion example tree of the spec: root with subdirectories
`b` and `e`, where `b` has subdirectories `c` and `d`. -/
def exTreeC2 : FSNode :=
  .dir (.cons "b" (.dir (.cons "c" (.dir .nil) (.cons "d" (.dir .nil) .nil)))
    (.cons "e" (.dir .nil) .nil))

/-- The glob scenario tree: `apps/a/services/{bar,foo}` and
`apps/b/services/baz` are directories, and `apps/c/services` is a file that
a wildcard match must silently exclude. -/
def c3tree : FSNode :=
  .dir (.cons "apps"
    (.dir (.cons "a"
      (.dir (.cons "services"
        (.dir (.cons "bar" (.dir .nil) (.cons "foo" (.dir .nil) .nil))) .nil))
      (.cons "b"
        (.dir (.cons "services" (.dir (.cons "baz" (.dir .nil) .nil)) .nil))
        (.cons "c" (.dir (.cons "services" .file .nil)) .nil))))
    .nil)

def c3foo : String := "apps/a/services/foo"

def c3bar : String := "apps/a/services/bar"

def teamOwner : String := "@team"

/-- Rules covering only `foo` and `bar` in the glob scenario. -/
def c3rules : Ruleset :=
  ⟨fun p => if p = c3foo ∨ p = c3bar then some ⟨[teamOwner]⟩ else none⟩

def w5root : FSNode := .dir (.cons "f" .file .nil)

def w6root : FSNode := .dir (.cons "empty" (.dir .nil) .nil)

def w7root : FSNode := .dir (.cons "a" (.dir .nil) (.cons "b" (.dir .nil) .nil))

def w7rules : Ruleset := ⟨fun p => if p = "a" then some ⟨[teamOwner]⟩ else none⟩

def w9a : FSNode := .dir (.cons "b" (.dir .nil) (.cons "a" .file .nil))

def w9b : FSNode := .dir (.cons "a" .file (.cons "b" (.dir .nil) .nil))

def w9spec : dirSpec := ⟨["b"], 0⟩

/-! ## The claims -/

/-- Claim C1: for every directory path and ruleset, `hasCodeownersCoverage`
returns true exactly when one of the three probe paths derived from the
cleaned directory (bare, trailing separator, trailing separator plus
synthetic file name) is matched by a rule with a non-empty owner list; a
match with an empty owner list therefore never yields coverage. -/
theorem hasCodeownersCoverage_iff_probe (ruleset : Ruleset) (d : String) :
    hasCodeownersCoverage ruleset d = true ↔
      ∃ p ∈ [clean d, clean d ++ slash, clean d ++ slash ++ fileTxt],
        ∃ rule, ruleset.Match p = some rule ∧ rule.Owners ≠ [] := by
  simp [hasCodeownersCoverage, List.any_eq_true, probeCovered_iff]

/-- Claim C2: `getDirsAtLevel` returns the directory itself at level 0 and,
on a readable directory, computes exactly the spec's recursive union over
immediate subdirectory entries at `level - 1` (files ignored); on the
example tree with subdirectories `{b, e}` and `b` containing `{c, d}`,
level 1 yields `{b, e}` and level 2 yields `{c, d}`. -/
theorem getDirsAtLevel_spec_characterisation :
    (∀ (node : FSNode) (path : List String), getDirsAtLevel node path 0 = .ok [path]) ∧
    (∀ (node : FSNode) (path : List String) (level : Int),
      readableTree node = true → isDirNode node = true →
      getDirsAtLevel node path level = .ok (dirsAtLevelSpec node path level)) ∧
    getDirsAtLevel exTreeC2 ["R"] 1 = .ok [["R", "b"], ["R", "e"]] ∧
    getDirsAtLevel exTreeC2 ["R"] 2 = .ok [["R", "b", "c"], ["R", "b", "d"]] :=
  ⟨fun node path => by rw [getDirsAtLevel.eq_def]; simp, getDirsAtLevel_ok_spec, by decide, by decide⟩

theorem getDirsAtLevel_spec_characterisation_witness :
    readableTree exTreeC2 = true ∧ isDirNode exTreeC2 = true ∧
    getDirsAtLevel exTreeC2 ["R"] 2 = .ok (dirsAtLevelSpec exTreeC2 ["R"] 2) :=
  ⟨by decide, by decide,
   getDirsAtLevel_spec_characterisation.2.1 exTreeC2 ["R"] 2 (by decide) (by decide)⟩

/-- Claim C3 (spec-modelled glob revision): validating the wildcard spec
the wildcard path `apps/(star)/services` at level 1 over the scenario tree skips the literal
existence pre-check, expands the wildcard, silently excludes the file
`apps/c/services`, and yields exactly one missing-coverage error, for
`apps/b/services/baz`. -/
theorem validateGlob_scenario :
    validateGlob c3tree c3rules [⟨["apps", starSeg, "services"], 1⟩] =
      [⟨"apps/b/services/baz", missingCoverageMessage "apps/b/services/baz"⟩] := by
  decide

/-- Claim C4: `printErrors` sorts the accumulated error sequence by path
(ascending ordinal order) — a permutation of the input sorted under the
path order — and hands exactly that sorted sequence, unchanged, to both
renderers. -/
theorem printErrors_sorted_pipeline (errors : List validationError) :
    (sortErrors errors).Perm errors ∧
    List.Sorted errLE (sortErrors errors) ∧
    printErrors errors = (textReport (sortErrors errors), markdownReport (sortErrors errors)) :=
  ⟨List.perm_insertionSort errLE errors, List.sorted_insertionSort errLE errors, rfl⟩

/-- Claim C5: a literal path that does not exist produces exactly one
does-not-exist error, and a literal path that is a file produces exactly one
not-a-directory error; in both cases the result is the same for every
ruleset, so no expansion or coverage check is involved. -/
theorem validate_literal_stat_errors (root : FSNode) (s : dirSpec) :
    (resolve root s.Path = none →
      ∀ ruleset, validate root ruleset [s] = [⟨pathToString s.Path, doesNotExistMessage⟩]) ∧
    (resolve root s.Path = some .file →
      ∀ ruleset, validate root ruleset [s] = [⟨pathToString s.Path, notADirectoryMessage⟩]) := by
  constructor
  · intro h ruleset
    simp [validate, validateSpec, h]
  · intro h ruleset
    simp [validate, validateSpec, h]

theorem validate_literal_stat_errors_witness :
    (resolve w5root ["missing"] = none ∧
      validate w5root emptyRuleset [⟨["missing"], 0⟩] =
        [⟨pathToString ["missing"], doesNotExistMessage⟩]) ∧
    (resolve w5root ["f"] = some .file ∧
      validate w5root emptyRuleset [⟨["f"], 0⟩] =
        [⟨pathToString ["f"], notADirectoryMessage⟩]) :=
  ⟨⟨rfl, (validate_literal_stat_errors w5root ⟨["missing"], 0⟩).1 rfl emptyRuleset⟩,
   ⟨rfl, (validate_literal_stat_errors w5root ⟨["f"], 0⟩).2 rfl emptyRuleset⟩⟩

/-- Claim C6: when `level > 0` and the expansion succeeds with an empty
result, the spec contributes exactly one no-subdirectories error, and
validation continues with the next spec. -/
theorem validate_noSubdirectories (root : FSNode) (ruleset : Ruleset) (s : dirSpec)
    (node : FSNode) (hres : resolve root s.Path = some node)
    (hdir : isDirNode node = true)
    (hexp : getDirsAtLevel node s.Path s.Level = .ok [])
    (hpos : s.Level > 0) :
    validateSpec root ruleset s = [⟨pathToString s.Path, noSubdirectoriesMessage s.Level⟩] ∧
    ∀ rest, validate root ruleset (s :: rest) =
      validateSpec root ruleset s ++ validate root ruleset rest := by
  constructor
  · cases node with
    | file => simp [isDirNode] at hdir
    | statFail => simp [isDirNode] at hdir
    | dir es => simp [validateSpec, hres, hexp, hpos]
    | unreadable => simp [validateSpec, hres, hexp, hpos]
  · intro rest
    exact validate_cons root ruleset s rest

theorem validate_noSubdirectories_witness :
    resolve w6root ["empty"] = some (.dir .nil) ∧
    getDirsAtLevel (.dir .nil) ["empty"] 1 = .ok [] ∧
    validateSpec w6root emptyRuleset ⟨["empty"], 1⟩ =
      [⟨pathToString ["empty"], noSubdirectoriesMessage 1⟩] :=
  ⟨rfl, rfl,
   (validate_noSubdirectories w6root emptyRuleset ⟨["empty"], 1⟩ (.dir .nil) rfl rfl rfl
     (by decide)).1⟩

/-- Claim C7: when the expansion result is checked for coverage, the spec
contributes exactly one missing-coverage error per expanded directory that
the ruleset does not cover — its path being that directory, not the spec's
base path — and nothing for covered directories. -/
theorem validate_notCovered_per_directory (root : FSNode) (ruleset : Ruleset) (s : dirSpec)
    (node : FSNode) (ds : List (List String))
    (hres : resolve root s.Path = some node)
    (hdir : isDirNode node = true)
    (hexp : getDirsAtLevel node s.Path s.Level = .ok ds)
    (hne : ¬(s.Level > 0 ∧ ds = [])) :
    validateSpec root ruleset s =
      (ds.filter fun d => !hasCodeownersCoverage ruleset (pathToString d)).map
        fun d => ⟨pathToString d, missingCoverageMessage (pathToString d)⟩ := by
  cases node with
  | file => simp [isDirNode] at hdir
  | statFail => simp [isDirNode] at hdir
  | dir es =>
    simp only [validateSpec, hres, hexp]
    rw [if_neg hne]
    exact flatMap_if_filter ds _ _
  | unreadable =>
    simp only [validateSpec, hres, hexp]
    rw [if_neg hne]
    exact flatMap_if_filter ds _ _

theorem validate_notCovered_per_directory_witness :
    (validateSpec w7root w7rules ⟨[], 1⟩ =
      (([["a"], ["b"]] : List (List String)).filter
          fun d => !hasCodeownersCoverage w7rules (pathToString d)).map
        fun d => ⟨pathToString d, missingCoverageMessage (pathToString d)⟩) ∧
    validateSpec w7root w7rules ⟨[], 1⟩ = [⟨"b", missingCoverageMessage "b"⟩] :=
  ⟨validate_notCovered_per_directory w7root w7rules ⟨[], 1⟩ w7root [["a"], ["b"]]
     rfl rfl rfl (by decide),
   by decide⟩

/-- Claim C8, counterexample: at level `-1` the expander does not return the
directory itself; on an empty directory it descends and returns the empty
list. -/
theorem getDirsAtLevel_neg_counterexample :
    getDirsAtLevel (.dir .nil) ["d"] (-1) = .ok [] ∧
    getDirsAtLevel (.dir .nil) ["d"] (-1) ≠ .ok [["d"]] := by
  constructor
  · decide
  · decide

/-- Claim C8, amended: for a negative level the expander does not treat the
input as a terminal case returning the directory itself; the level check
only tests equality with 0, so a negative level descends through all
subdirectories and, on any readable directory, returns the empty list. -/
theorem getDirsAtLevel_neg_empty (node : FSNode) (path : List String) (level : Int)
    (hneg : level < 0) (hr : readableTree node = true) (hd : isDirNode node = true) :
    getDirsAtLevel node path level = .ok [] := by
  rw [getDirsAtLevel_ok_spec node path level hr hd, dirsAtLevelSpec_neg node path level hneg]

theorem getDirsAtLevel_neg_empty_witness :
    getDirsAtLevel (.dir (.cons "x" (.dir .nil) .nil)) ["d"] (-2) = .ok [] :=
  getDirsAtLevel_neg_empty (.dir (.cons "x" (.dir .nil) .nil)) ["d"] (-2)
    (by decide) (by decide) (by decide)

/-- Claim C9: the validation pipeline is deterministic — a second run over
the same inputs is value-equal — and over listing orders: two well-formed
trees whose directory listings enumerate the same entries in different
orders normalise (every listing sorted by filename, as `os.ReadDir`
guarantees) to the same tree, so the sorted error sequences coincide in
content and order. -/
theorem validate_deterministic (specs : List dirSpec) (ruleset : Ruleset) :
    (∀ root : FSNode,
      sortErrors (validate root ruleset specs) = sortErrors (validate root ruleset specs)) ∧
    (∀ fs1 fs2 : FSNode, ListingEquiv fs1 fs2 → nodupNamesTree fs1 = true →
      sortErrors (validate (sortTree fs1) ruleset specs) =
        sortErrors (validate (sortTree fs2) ruleset specs)) :=
  ⟨fun _ => rfl,
   fun fs1 fs2 hequiv hnd => by rw [(sortTree_eq_of_listingEquiv hequiv hnd).1]⟩

theorem validate_deterministic_witness :
    ListingEquiv w9a w9b ∧ nodupNamesTree w9a = true ∧
    sortErrors (validate (sortTree w9a) emptyRuleset [w9spec]) =
      sortErrors (validate (sortTree w9b) emptyRuleset [w9spec]) :=
  ⟨.dir .swap, by decide,
   (validate_deterministic [w9spec] emptyRuleset).2 w9a w9b (.dir .swap) (by decide)⟩

/-- Claim C10: per spec the stat-failure, not-a-directory, expansion-failure
and no-subdirectories branches are mutually exclusive and short-circuiting:
either the spec contributes exactly one error carrying the spec's own path
and one of those messages (never a missing-coverage message), or every
error it contributes is a missing-coverage error for some expanded
directory. -/
theorem validateSpec_exclusive_branches (root : FSNode) (ruleset : Ruleset) (s : dirSpec) :
    (∃ m, validateSpec root ruleset s = [⟨pathToString s.Path, m⟩] ∧
        (m = doesNotExistMessage ∨ m = statFailureMessage ∨ m = notADirectoryMessage ∨
          (∃ p, m = readErrorMessage p) ∨ m = noSubdirectoriesMessage s.Level) ∧
        ∀ d, m ≠ missingCoverageMessage d) ∨
    (∃ ds : List (List String), validateSpec root ruleset s =
        ds.map fun d => ⟨pathToString d, missingCoverageMessage (pathToString d)⟩) := by
  cases hres : resolve root s.Path with
  | none =>
    left
    exact ⟨doesNotExistMessage, by simp [validateSpec, hres], Or.inl rfl,
      ne_missingCoverageMessage rfl (by decide)⟩
  | some node =>
    cases node with
    | statFail =>
      left
      exact ⟨statFailureMessage, by simp [validateSpec, hres], Or.inr (Or.inl rfl),
        ne_missingCoverageMessage rfl (by decide)⟩
    | file =>
      left
      exact ⟨notADirectoryMessage, by simp [validateSpec, hres], Or.inr (Or.inr (Or.inl rfl)),
        ne_missingCoverageMessage rfl (by decide)⟩
    | dir es =>
      cases hexp : getDirsAtLevel (.dir es) s.Path s.Level with
      | error p =>
        left
        exact ⟨readErrorMessage p, by simp [validateSpec, hres, hexp],
          Or.inr (Or.inr (Or.inr (Or.inl ⟨p, rfl⟩))),
          ne_missingCoverageMessage (readErrorMessage_head p) (by decide)⟩
      | ok ds =>
        by_cases hif : s.Level > 0 ∧ ds = []
        · left
          exact ⟨noSubdirectoriesMessage s.Level, by simp [validateSpec, hres, hexp, hif],
            Or.inr (Or.inr (Or.inr (Or.inr rfl))),
            ne_missingCoverageMessage (noSubdirectoriesMessage_head s.Level) (by decide)⟩
        · right
          refine ⟨ds.filter fun d => !hasCodeownersCoverage ruleset (pathToString d), ?_⟩
          simp only [validateSpec, hres, hexp]
          rw [if_neg hif]
          exact flatMap_if_filter ds _ _
    | unreadable =>
      cases hexp : getDirsAtLevel .unreadable s.Path s.Level with
      | error p =>
        left
        exact ⟨readErrorMessage p, by simp [validateSpec, hres, hexp],
          Or.inr (Or.inr (Or.inr (Or.inl ⟨p, rfl⟩))),
          ne_missingCoverageMessage (readErrorMessage_head p) (by decide)⟩
      | ok ds =>
        by_cases hif : s.Level > 0 ∧ ds = []
        · left
          exact ⟨noSubdirectoriesMessage s.Level, by simp [validateSpec, hres, hexp, hif],
            Or.inr (Or.inr (Or.inr (Or.inr rfl))),
            ne_missingCoverageMessage (noSubdirectoriesMessage_head s.Level) (by decide)⟩
        · right
          refine ⟨ds.filter fun d => !hasCodeownersCoverage ruleset (pathToString d), ?_⟩
          simp only [validateSpec, hres, hexp]
          rw [if_neg hif]
          exact flatMap_if_filter ds _ _
